import Mathlib

/-!
# RefCord invite attribution engine — verification development

Shallow embedding of the core of `src/bot.py`: the invite snapshot cache,
the join-attribution diff in `on_member_join`, the SQLite-backed referral
ledger (`add_or_upsert_invite_owner`, `increment_code_use`,
`get_member_total_referrals`), the reward policy
(`next_award_roles_for`, `load_rewards_config`), and the cache refresh
(`refresh_guild_invites`).

Machine conventions: guild ids, user ids and role ids are `Int`
(Discord snowflakes, no overflow concerns in Python); use counts are `Nat`;
invite codes are `String`.  SQLite rows become structures, tables become
lists of rows, a Python dict becomes an association list.  Fallible
platform calls (`guild.invites()`) become an explicit result type.
-/

namespace RefCord

/-- A row of the `user_invites` table:
`(guild_id, user_id, code UNIQUE PRIMARY KEY, uses DEFAULT 0)`. -/
structure Invite where
  guild_id : Int
  user_id : Int
  code : String
  uses : Nat
deriving DecidableEq

/-- A row of the append-only `join_events` table:
`(guild_id, joined_user_id, inviter_code, ts)`. -/
structure JoinEvent where
  guild_id : Int
  joined_user_id : Int
  inviter_code : String
  ts : Int
deriving DecidableEq

/-- The persistent store: both tables of the SQLite database. -/
structure DB where
  user_invites : List Invite
  join_events : List JoinEvent
deriving DecidableEq

/-- The freshly created database: both tables empty. -/
def dbEmpty : DB := ⟨[], []⟩

/-- One invite as returned by the platform's live invite list
(`guild.invites()`).  `uses` is `Option Nat` because `discord.Invite.uses`
may be `None`; the bot reads it as `inv.uses or 0`. -/
structure InviteInfo where
  code : String
  uses : Option Nat
deriving DecidableEq

/-- Result of a platform `guild.invites()` call: success with the list,
`discord.Forbidden`, or any other exception. -/
inductive FetchResult where
  | ok (invs : List InviteInfo)
  | forbidden
  | error
deriving DecidableEq

/-- The in-memory snapshot cache `invites_cache : Dict[int, Dict[str, int]]`,
as an association list guild id → (code → last-known use count). -/
abbrev Cache := List (Int × List (String × Nat))

/-- The read `invites_cache.get(guild_id, ...)` with the empty mapping as
default. -/
def cacheGet (c : Cache) (g : Int) : List (String × Nat) :=
  (List.lookup g c).getD []

/-- The dict assignment `invites_cache[guild_id] = m` (replaces the entry). -/
def cacheSet (c : Cache) (g : Int) (m : List (String × Nat)) : Cache :=
  (g, m) :: c.filter (fun p => p.1 != g)

/-- Python truthiness of the `used_code` variable (`if not used_code:`):
`None` and the empty string are falsy. -/
def pyTruthy : Option String → Bool
  | none => false
  | some s => !(s.isEmpty)

/-- The refresh `refresh_guild_invites`: on success replace the guild's cached mapping
with `{inv.code: (inv.uses or 0)}`; on `discord.Forbidden` set it to the
empty mapping (degraded mode); on any other exception leave the cache
untouched (the handler only logs). -/
def refresh_guild_invites (g : Int) (fetch : FetchResult) (c : Cache) : Cache :=
  match fetch with
  | .ok invs => cacheSet c g (invs.map fun i => (i.code, i.uses.getD 0))
  | .forbidden => cacheSet c g []
  | .error => c

/-- The diff loop of `on_member_join`: the first invite of `after` whose
live use count strictly exceeds `before`'s count for the same code
(`before.get(inv.code, 0)`), if any. -/
def resolveJoin (before : List (String × Nat)) (after : List InviteInfo) :
    Option String :=
  (after.find? fun inv =>
    (List.lookup inv.code before).getD 0 < inv.uses.getD 0).map (·.code)

/-- The upsert `add_or_upsert_invite_owner`: `INSERT ... VALUES (g, u, code,
COALESCE((SELECT uses FROM user_invites WHERE code=?), 0)) ON CONFLICT(code)
DO UPDATE SET user_id=excluded.user_id, guild_id=excluded.guild_id`.
On conflict the row keeps its `uses`; otherwise a fresh row is inserted with
the coalesced prior uses (0, since no row with that code exists). -/
def add_or_upsert_invite_owner (g u : Int) (code : String) (db : DB) : DB :=
  let prevUses := ((db.user_invites.find? fun inv => inv.code == code).map
    (·.uses)).getD 0
  if db.user_invites.any (fun inv => inv.code == code) then
    { db with user_invites := db.user_invites.map fun inv =>
        if inv.code == code then { inv with guild_id := g, user_id := u }
        else inv }
  else
    { db with user_invites := db.user_invites ++ [⟨g, u, code, prevUses⟩] }

/-- The `UPDATE user_invites SET uses = uses + 1 WHERE guild_id=? AND code=?`
statement of `increment_code_use`. -/
def bumpUses (g : Int) (code : String) (db : DB) : DB :=
  { db with user_invites := db.user_invites.map fun inv =>
      if inv.guild_id == g && inv.code == code then
        { inv with uses := inv.uses + 1 }
      else inv }

/-- The `INSERT INTO join_events ...` statement of `increment_code_use`. -/
def appendJoinEvent (g : Int) (joined : Int) (code : String) (ts : Int)
    (db : DB) : DB :=
  { db with join_events := db.join_events ++ [⟨g, joined, code, ts⟩] }

/-- The ledger write `increment_code_use`: both statements, committed together. -/
def increment_code_use (g : Int) (code : String) (joined : Int) (ts : Int)
    (db : DB) : DB :=
  appendJoinEvent g joined code ts (bumpUses g code db)

/-- One step of a SQLite session: execute a DML statement against the
in-transaction state, or `COMMIT` the transaction. -/
inductive SqlAction where
  | exec (f : DB → DB)
  | commit

/-- Run a session over a pair (persisted state, in-transaction state).
Uncommitted statements touch only the in-transaction state; `COMMIT`
publishes it.  A connection closed without commit rolls back, so the
persisted component is what survives a crash. -/
def runActions : List SqlAction → DB × DB → DB × DB
  | [], s => s
  | .exec f :: rest, (persisted, tx) => runActions rest (persisted, f tx)
  | .commit :: rest, (_, tx) => runActions rest (tx, tx)

/-- The persisted state after the session crashes having completed
exactly its first `k` actions. -/
def persistedAfter (acts : List SqlAction) (db : DB) (k : Nat) : DB :=
  (runActions (acts.take k) (db, db)).1

/-- The session issued by `increment_code_use`: the `UPDATE`, the
`INSERT`, then the single `db.commit()`. -/
def incrementSession (g : Int) (code : String) (joined : Int) (ts : Int) :
    List SqlAction :=
  [.exec (bumpUses g code), .exec (appendJoinEvent g joined code ts), .commit]

/-- SQL `SUM(uses)` over a result set: `NULL` (here `none`) on an empty
set, otherwise the sum. -/
def sqlSumUses (rows : List Invite) : Option Nat :=
  match rows with
  | [] => none
  | _ => some ((rows.map (·.uses)).sum)

/-- The aggregate read `get_member_total_referrals`: `SELECT COALESCE(SUM(uses), 0) FROM
user_invites WHERE guild_id=? AND user_id=?` (plus the `row[0] or 0`
guard, absorbed by the coalesce). -/
def get_member_total_referrals (g u : Int) (db : DB) : Nat :=
  (sqlSumUses (db.user_invites.filter fun inv =>
    inv.guild_id == g && inv.user_id == u)).getD 0

/-- The `REFERRAL_REWARDS` configuration: guild id → (threshold → role id).
In the Python source both keys are strings of decimal integers; after the
loader's normalisation they stand for the integers, which is how they are
modelled here. -/
abbrev Rewards := List (Int × List (Nat × Int))

/-- The reward policy `next_award_roles_for`: take the guild's mapping (`or {}`), sort the
integer thresholds, keep those `≤ total_referrals`; if none, `(None, [])`;
otherwise the role of the maximum eligible threshold, together with the
roles of all eligible thresholds. -/
def next_award_roles_for (rw : Rewards) (guild_id : Int)
    (total_referrals : Nat) : Option Int × List Int :=
  let mapping := (List.lookup guild_id rw).getD []
  if mapping = [] then (none, [])
  else
    let thresholds := List.insertionSort (· ≤ ·) (mapping.map Prod.fst)
    let eligible := thresholds.filter (fun t => t ≤ total_referrals)
    if eligible = [] then (none, [])
    else
      let best := eligible.foldl max 0
      (List.lookup best mapping, eligible.filterMap (fun t => List.lookup t mapping))

/-- Parsed `REFERRAL_REWARDS_JSON` before value normalisation: guild key →
list of (threshold key, value).  A value is `some n` when Python's `int(v)`
succeeds with `n` and `none` when it raises. -/
abbrev RawRewards := List (String × List (String × Option Int))

/-- The per-guild normalisation `{str(k): int(v) for k, v in mapping.items()}`:
fails (raises) as soon as one value fails `int`. -/
def convMapping (m : List (String × Option Int)) :
    Option (List (String × Int)) :=
  m.foldr (fun kv acc =>
    match kv.2, acc with
    | some n, some r => some ((kv.1, n) :: r)
    | _, _ => none) (some [])

/-- The loader `load_rewards_config`: empty/unset or unparsable `REFERRAL_REWARDS_JSON`
(`raw = none`) yields `{}`; otherwise normalise every guild's mapping, and if
any entry raises, the single `except` clause catches it and returns `{}`. -/
def load_rewards_config (raw : Option RawRewards) :
    List (String × List (String × Int)) :=
  match raw with
  | none => []
  | some data =>
    match data.foldr (fun gm acc =>
        match convMapping gm.2, acc with
        | some cm, some r => some ((gm.1, cm) :: r)
        | _, _ => none) (some []) with
    | some d => d
    | none => []

/-- The bot's mutable state touched by the join handler: the snapshot
cache and the database. -/
structure BotState where
  cache : Cache
  db : DB
deriving DecidableEq

/-- What one `on_member_join` invocation did: the final state, the
resolved code (`None` when the join is unattributed), and the role id the
handler attempted to grant, if any. -/
structure JoinOutcome where
  state : BotState
  used_code : Option String
  grantedRole : Option Int
deriving DecidableEq

/-- The join handler `on_member_join`.  Platform reads are parameters: `fetch` is the fresh
`guild.invites()` result, `roleExists` is `guild.get_role`, `memberPresent`
is `guild.get_member` on the inviter, `memberHasRole` is the
`role not in member_inviter.roles` check.  Steps: snapshot `before`,
fetch `after` (a failure returns with nothing changed), find the first
strictly increased invite, unconditionally replace the guild's cache entry,
and if a code was resolved run `increment_code_use`, look up the owner and
evaluate the reward policy. -/
def on_member_join (rw : Rewards) (roleExists : Int → Bool)
    (memberPresent : Int → Bool) (memberHasRole : Int → Int → Bool)
    (g : Int) (memberId : Int) (ts : Int) (fetch : FetchResult)
    (s : BotState) : JoinOutcome :=
  match fetch with
  | .forbidden => ⟨s, none, none⟩
  | .error => ⟨s, none, none⟩
  | .ok after =>
    let before := cacheGet s.cache g
    let used_code := resolveJoin before after
    let cache1 := cacheSet s.cache g (after.map fun i => (i.code, i.uses.getD 0))
    if pyTruthy used_code then
      match used_code with
      | none => ⟨⟨cache1, s.db⟩, none, none⟩
      | some c =>
        let db1 := increment_code_use g c memberId ts s.db
        let inviter := (db1.user_invites.find? fun inv =>
          inv.guild_id == g && inv.code == c).map (·.user_id)
        let s1 : BotState := ⟨cache1, db1⟩
        match inviter with
        | none => ⟨s1, some c, none⟩
        | some uid =>
          if uid == 0 then ⟨s1, some c, none⟩
          else
            let total := get_member_total_referrals g uid db1
            match (next_award_roles_for rw g total).1 with
            | none => ⟨s1, some c, none⟩
            | some rid =>
              if rid == 0 then ⟨s1, some c, none⟩
              else if roleExists rid && memberPresent uid &&
                  !(memberHasRole uid rid) then
                ⟨s1, some c, some rid⟩
              else ⟨s1, some c, none⟩
    else ⟨⟨cache1, s.db⟩, none, none⟩

/-- The ledger operations a run of the bot can issue, for invariant
reasoning over arbitrary interleavings. -/
inductive Op where
  | register (g u : Int) (code : String)
  | record (g : Int) (code : String) (joined : Int) (ts : Int)
deriving DecidableEq

/-- Apply one ledger operation. -/
def applyOp (db : DB) : Op → DB
  | .register g u code => add_or_upsert_invite_owner g u code db
  | .record g code joined ts => increment_code_use g code joined ts db

/-- Apply a sequence of ledger operations to the empty database. -/
def applyOps (ops : List Op) : DB :=
  ops.foldl applyOp dbEmpty

/-- A `record` is on-ledger when the (guild, code) pair it names has a row
in `user_invites`, so the `UPDATE` statement matches it; `register` is
always on-ledger. -/
def opOnLedger (db : DB) : Op → Bool
  | .register _ _ _ => true
  | .record g code _ _ =>
    db.user_invites.any fun inv => inv.guild_id == g && inv.code == code

/-- Every operation of the sequence is on-ledger at its point of
application. -/
def opsOnLedger : DB → List Op → Bool
  | _, [] => true
  | db, op :: rest => opOnLedger db op && opsOnLedger (applyOp db op) rest

/-- Number of join events attributed to a code. -/
def eventCount (evs : List JoinEvent) (code : String) : Nat :=
  (evs.filter fun e => e.inviter_code == code).length

/-! ## Helper lemmas -/

/-- The function `List.find?` returns the first element satisfying the predicate. -/
theorem find_first_iff {α : Type _} (p : α → Bool) (l : List α) (a : α) :
    l.find? p = some a ↔
      p a = true ∧ ∃ s t, l = s ++ a :: t ∧ ∀ x ∈ s, ¬ p x = true := by
  induction l with
  | nil => simp
  | cons x xs ih =>
    by_cases hx : p x = true
    · rw [List.find?_cons_of_pos _ hx]
      constructor
      · rintro h
        injection h with h
        subst h
        exact ⟨hx, [], xs, rfl, by simp⟩
      · rintro ⟨hpa, s, t, heq, hall⟩
        cases s with
        | nil =>
          injection heq with h1 _
          rw [h1]
        | cons y ys =>
          injection heq with h1 _
          exact absurd (h1 ▸ hx) (hall y (by simp))
    · rw [List.find?_cons_of_neg _ hx, ih]
      constructor
      · rintro ⟨hpa, s, t, heq, hall⟩
        refine ⟨hpa, x :: s, t, by rw [heq]; rfl, ?_⟩
        intro z hz
        rcases List.mem_cons.mp hz with rfl | hz
        · exact hx
        · exact hall z hz
      · rintro ⟨hpa, s, t, heq, hall⟩
        cases s with
        | nil =>
          injection heq with h1 _
          exact absurd (h1 ▸ hpa) hx
        | cons y ys =>
          injection heq with h1 h2
          exact ⟨hpa, ys, t, h2, fun z hz => hall z (by simp [hz])⟩

/-- Key lookup on an association list with distinct keys finds any pair that
is a member. -/
theorem lookup_of_mem_nodup {α β : Type _} [BEq α] [LawfulBEq α]
    {l : List (α × β)} {k : α} {v : β}
    (hnd : (l.map Prod.fst).Nodup) (hmem : (k, v) ∈ l) :
    List.lookup k l = some v := by
  induction l with
  | nil => cases hmem
  | cons p rest ih =>
    obtain ⟨k', v'⟩ := p
    rcases List.mem_cons.mp hmem with heq | hmem'
    · injection heq with h1 h2
      subst h1; subst h2
      simp [List.lookup]
    · have hkne : k ≠ k' := by
        rintro rfl
        exact (List.nodup_cons.mp hnd).1
          (List.mem_map.mpr ⟨(k, v), hmem', rfl⟩)
      have : (k == k') = false := by
        simpa using hkne
      simp only [List.lookup, this]
      exact ih (List.nodup_cons.mp hnd).2 hmem'

/-- The initial accumulator is a lower bound for `foldl max`. -/
theorem init_le_foldl_max (l : List Nat) (a : Nat) : a ≤ l.foldl max a := by
  induction l generalizing a with
  | nil => simp
  | cons x xs ih => exact le_trans (le_max_left a x) (ih (max a x))

/-- Every member is a lower bound for `foldl max`. -/
theorem mem_le_foldl_max {l : List Nat} {x : Nat} (hx : x ∈ l) (a : Nat) :
    x ≤ l.foldl max a := by
  induction l generalizing a with
  | nil => cases hx
  | cons y ys ih =>
    rcases List.mem_cons.mp hx with rfl | h
    · exact le_trans (le_max_right a x) (init_le_foldl_max ys (max a x))
    · exact ih h (max a y)

/-- Folding `max` returns the accumulator or a member. -/
theorem foldl_max_mem (l : List Nat) (a : Nat) :
    l.foldl max a = a ∨ l.foldl max a ∈ l := by
  induction l generalizing a with
  | nil => exact Or.inl rfl
  | cons y ys ih =>
    rcases ih (max a y) with h | h
    · rcases Nat.le_total a y with hay | hya
      · right
        rw [List.foldl_cons, h, max_eq_right hay]
        exact List.mem_cons_self y ys
      · left
        rw [List.foldl_cons, h, max_eq_left hya]
    · right
      exact List.mem_cons_of_mem y h

/-- The `UPDATE` of `increment_code_use` leaves the `user_invites` table
unchanged when no row matches its `WHERE` clause. -/
theorem bumpUses_eq_of_no_match {g : Int} {code : String} {db : DB}
    (h : ∀ inv ∈ db.user_invites,
      ¬ (inv.guild_id == g && inv.code == code) = true) :
    bumpUses g code db = db := by
  have hmap : db.user_invites.map (fun inv =>
      if inv.guild_id == g && inv.code == code then
        { inv with uses := inv.uses + 1 }
      else inv) = db.user_invites := by
    conv_rhs => rw [← List.map_id db.user_invites]
    refine List.map_congr_left fun inv hinv => ?_
    show (if (inv.guild_id == g && inv.code == code) = true then
      { inv with uses := inv.uses + 1 } else inv) = id inv
    rw [if_neg (h inv hinv)]
    rfl
  unfold bumpUses
  rw [hmap]

/-! ## Claim theorems -/

/-- Claim C1: `resolveJoin` returns the first invite, in the order of the
fresh `after` list, whose use count strictly exceeds the count recorded for
the same code in the `before` snapshot (codes missing from `before` count
as 0); in particular, for `before = {A:5, B:2}` and
`after = [{A,5},{B,3}]` it returns `B`. -/
theorem resolveJoin_first_increase :
    (∀ (before : List (String × Nat)) (after : List InviteInfo) (c : String),
      resolveJoin before after = some c ↔
        ∃ l inv r, after = l ++ inv :: r ∧ inv.code = c ∧
          (List.lookup inv.code before).getD 0 < inv.uses.getD 0 ∧
          ∀ j ∈ l, j.uses.getD 0 ≤ (List.lookup j.code before).getD 0) ∧
    resolveJoin [("A", 5), ("B", 2)] [⟨"A", some 5⟩, ⟨"B", some 3⟩] =
      some "B" := by
  constructor
  · intro before after c
    unfold resolveJoin
    rw [Option.map_eq_some']
    constructor
    · rintro ⟨inv, hfind, hcode⟩
      obtain ⟨hp, s, t, heq, hall⟩ := (find_first_iff _ _ _).mp hfind
      refine ⟨s, inv, t, heq, hcode, by simpa using hp, ?_⟩
      intro j hj
      have := hall j hj
      simpa [Nat.not_lt] using this
    · rintro ⟨l, inv, r, heq, hcode, hlt, hall⟩
      refine ⟨inv, (find_first_iff _ _ _).mpr ⟨by simpa using hlt, l, r, heq, ?_⟩, hcode⟩
      intro x hx
      simpa [Nat.not_lt] using hall x hx
  · rfl

/-- Claim C2: for a join whose fresh `after` list shows no invite with a use
count strictly above the `before` snapshot, `resolveJoin` returns none and
the join handler performs no ledger mutation: the database is unchanged
(no use-count increment, no Join Event row). -/
theorem unresolved_join_no_ledger_mutation
    (rw : Rewards) (re : Int → Bool) (mp : Int → Bool)
    (mhr : Int → Int → Bool) (g memberId ts : Int) (s : BotState)
    (after : List InviteInfo)
    (h : ∀ inv ∈ after,
      inv.uses.getD 0 ≤ (List.lookup inv.code (cacheGet s.cache g)).getD 0) :
    resolveJoin (cacheGet s.cache g) after = none ∧
    (on_member_join rw re mp mhr g memberId ts (.ok after) s).used_code =
      none ∧
    (on_member_join rw re mp mhr g memberId ts (.ok after) s).state.db =
      s.db := by
  have hres : resolveJoin (cacheGet s.cache g) after = none := by
    unfold resolveJoin
    rw [Option.map_eq_none', List.find?_eq_none]
    intro inv hinv
    simpa [Nat.not_lt] using h inv hinv
  refine ⟨hres, ?_, ?_⟩ <;>
    simp [on_member_join, hres, pyTruthy]

/-- Claim C3: `increment_code_use` issues the use-count `UPDATE` and the
Join-Event `INSERT` inside one transaction with a single commit: a crash
after any prefix of the session leaves the persisted database either
untouched or with both effects applied, never one without the other. -/
theorem increment_code_use_atomic (g : Int) (code : String)
    (joined ts : Int) (db : DB) (k : Nat) :
    (persistedAfter (incrementSession g code joined ts) db k = db ∨
      persistedAfter (incrementSession g code joined ts) db k =
        increment_code_use g code joined ts db) ∧
    increment_code_use g code joined ts db =
      { db with
          user_invites := (bumpUses g code db).user_invites,
          join_events := db.join_events ++ [⟨g, joined, code, ts⟩] } := by
  refine ⟨?_, rfl⟩
  match k with
  | 0 => exact Or.inl rfl
  | 1 => exact Or.inl rfl
  | 2 => exact Or.inl rfl
  | (n + 3) =>
    right
    have hlen : (incrementSession g code joined ts).length ≤ n + 3 := by
      simp [incrementSession]
    rw [persistedAfter, List.take_of_length_le hlen]
    rfl

/-- Claim C4: `add_or_upsert_invite_owner` is an idempotent upsert: calling
it twice with the same guild, owner and code equals calling it once, and
for a code already present it re-points the row's owner and guild while
keeping the stored use count. -/
theorem registerOwnership_idempotent_upsert (db : DB) (g u : Int)
    (c : String) :
    add_or_upsert_invite_owner g u c (add_or_upsert_invite_owner g u c db) =
      add_or_upsert_invite_owner g u c db ∧
    (∀ inv ∈ db.user_invites, inv.code = c →
      (⟨g, u, c, inv.uses⟩ : Invite) ∈
        (add_or_upsert_invite_owner g u c db).user_invites) := by
  have hupd_code : ∀ inv : Invite,
      (if inv.code == c then
        { inv with guild_id := g, user_id := u } else inv).code = inv.code := by
    intro inv
    split <;> rfl
  have hupd_idem : ∀ inv : Invite,
      (fun inv : Invite => if inv.code == c then
        { inv with guild_id := g, user_id := u } else inv)
      ((fun inv : Invite => if inv.code == c then
        { inv with guild_id := g, user_id := u } else inv) inv) =
      (fun inv : Invite => if inv.code == c then
        { inv with guild_id := g, user_id := u } else inv) inv := by
    intro inv
    by_cases hc : inv.code == c <;> simp [hc]
  constructor
  · by_cases hpres : db.user_invites.any (fun inv => inv.code == c) = true
    · have h1 : add_or_upsert_invite_owner g u c db =
          { db with user_invites := db.user_invites.map fun inv =>
              if inv.code == c then { inv with guild_id := g, user_id := u }
              else inv } := by
        unfold add_or_upsert_invite_owner
        rw [if_pos hpres]
      rw [h1]
      unfold add_or_upsert_invite_owner
      rw [if_pos]
      · simp only [List.map_map]
        congr 1
        exact List.map_congr_left fun inv _ => hupd_idem inv
      · rw [List.any_eq_true]
        obtain ⟨x, hx, hcx⟩ := List.any_eq_true.mp hpres
        refine ⟨_, List.mem_map_of_mem _ hx, ?_⟩
        show ((if (x.code == c) = true then
          { x with guild_id := g, user_id := u } else x).code == c) = true
        rw [hupd_code x]
        exact hcx
    · have hnone : db.user_invites.find? (fun inv => inv.code == c) = none := by
        rw [List.find?_eq_none]
        exact (List.any_eq_false.mp (Bool.eq_false_iff.mpr hpres) : _)
      have h1 : add_or_upsert_invite_owner g u c db =
          { db with user_invites :=
              db.user_invites ++ [⟨g, u, c, 0⟩] } := by
        unfold add_or_upsert_invite_owner
        rw [if_neg hpres, hnone]
        rfl
      rw [h1]
      unfold add_or_upsert_invite_owner
      rw [if_pos]
      · congr 1
        rw [List.map_append]
        have hl : (db.user_invites.map fun inv =>
            if inv.code == c then { inv with guild_id := g, user_id := u }
            else inv) = db.user_invites := by
          conv_rhs => rw [← List.map_id db.user_invites]
          refine List.map_congr_left fun inv hinv => ?_
          have hfalse : ¬ (inv.code == c) = true :=
            List.any_eq_false.mp (Bool.eq_false_iff.mpr hpres) inv hinv
          show (if (inv.code == c) = true then
            { inv with guild_id := g, user_id := u } else inv) = id inv
          rw [if_neg hfalse]
          rfl
        rw [hl]
        simp
      · simp
  · intro inv hmem hcode
    have hpres : db.user_invites.any (fun inv => inv.code == c) = true :=
      List.any_eq_true.mpr ⟨inv, hmem, by simp [hcode]⟩
    unfold add_or_upsert_invite_owner
    rw [if_pos hpres]
    have hval : (⟨g, u, c, inv.uses⟩ : Invite) =
        (fun inv : Invite => if inv.code == c then
          { inv with guild_id := g, user_id := u } else inv) inv := by
      simp [hcode]
    rw [hval]
    exact List.mem_map_of_mem _ hmem

/-- Witness for C4: re-registering the code `Z`, stored with uses 7, under
a new guild and owner keeps uses at 7. -/
theorem registerOwnership_idempotent_upsert_w :
    (⟨5, 9, "Z", 7⟩ : Invite) ∈
      (add_or_upsert_invite_owner 5 9 "Z"
        ⟨[⟨1, 2, "Z", 7⟩], []⟩).user_invites :=
  (registerOwnership_idempotent_upsert ⟨[⟨1, 2, "Z", 7⟩], []⟩ 5 9 "Z").2
    ⟨1, 2, "Z", 7⟩ (by simp) rfl

/-- Witness for C2: with snapshot `{A:5}` and fresh list `[{A,5}]` the join
is unattributed and the database (one invite row, no events) is unchanged. -/
theorem unresolved_join_no_ledger_mutation_w :
    resolveJoin
      (cacheGet (⟨[(1, [("A", 5)])], ⟨[⟨1, 2, "A", 5⟩], []⟩⟩ : BotState).cache 1)
      [⟨"A", some 5⟩] = none ∧
    (on_member_join [] (fun _ => false) (fun _ => false) (fun _ _ => false)
      1 42 0 (.ok [⟨"A", some 5⟩])
      ⟨[(1, [("A", 5)])], ⟨[⟨1, 2, "A", 5⟩], []⟩⟩).used_code = none ∧
    (on_member_join [] (fun _ => false) (fun _ => false) (fun _ _ => false)
      1 42 0 (.ok [⟨"A", some 5⟩])
      ⟨[(1, [("A", 5)])], ⟨[⟨1, 2, "A", 5⟩], []⟩⟩).state.db =
      ⟨[⟨1, 2, "A", 5⟩], []⟩ :=
  unresolved_join_no_ledger_mutation [] (fun _ => false) (fun _ => false)
    (fun _ _ => false) 1 42 0 ⟨[(1, [("A", 5)])], ⟨[⟨1, 2, "A", 5⟩], []⟩⟩
    [⟨"A", some 5⟩] (by decide)

/-- Claim C6: for a guild whose configured thresholds are distinct (they
are the keys of a Python dict), `next_award_roles_for` returns `None` when
no threshold is at most the referral total, and otherwise the role mapped
to the maximum threshold at most the total. -/
theorem nextRole_max_threshold (rw : Rewards) (g : Int) (total : Nat)
    (hnd : (((List.lookup g rw).getD []).map Prod.fst).Nodup) :
    ((∀ t ∈ ((List.lookup g rw).getD []).map Prod.fst, ¬ t ≤ total) →
      (next_award_roles_for rw g total).1 = none) ∧
    (∀ t r, (t, r) ∈ (List.lookup g rw).getD [] → t ≤ total →
      (∀ t' ∈ ((List.lookup g rw).getD []).map Prod.fst,
        t' ≤ total → t' ≤ t) →
      (next_award_roles_for rw g total).1 = some r) := by
  set mapping := (List.lookup g rw).getD [] with hm
  have hperm : (List.insertionSort (· ≤ ·) (mapping.map Prod.fst)).Perm
      (mapping.map Prod.fst) := List.perm_insertionSort _ _
  constructor
  · intro h
    unfold next_award_roles_for
    rw [← hm]
    by_cases hemp : mapping = []
    · rw [if_pos hemp]
    · rw [if_neg hemp]
      have hfil : (List.insertionSort (· ≤ ·)
          (mapping.map Prod.fst)).filter (fun t => t ≤ total) = [] := by
        rw [List.filter_eq_nil_iff]
        intro t ht
        simpa using h t (hperm.mem_iff.mp ht)
      simp only [hfil, if_pos]
  · intro t r hmem hle hmax
    have htm : t ∈ mapping.map Prod.fst :=
      List.mem_map.mpr ⟨(t, r), hmem, rfl⟩
    have hemp : ¬ mapping = [] := fun h0 => by
      rw [h0] at hmem
      cases hmem
    unfold next_award_roles_for
    rw [← hm, if_neg hemp]
    set eligible := (List.insertionSort (· ≤ ·)
      (mapping.map Prod.fst)).filter (fun t => t ≤ total) with he
    have hte : t ∈ eligible := by
      rw [he, List.mem_filter]
      exact ⟨hperm.mem_iff.mpr htm, by simpa using hle⟩
    have hene : ¬ eligible = [] := List.ne_nil_of_mem hte
    rw [if_neg hene]
    have hbest : eligible.foldl max 0 = t := by
      refine le_antisymm ?_ (mem_le_foldl_max hte 0)
      rcases foldl_max_mem eligible 0 with h0 | hmem'
      · rw [h0]
        exact Nat.zero_le t
      · have := List.mem_filter.mp (he ▸ hmem')
        exact hmax _ (hperm.mem_iff.mp this.1) (by simpa using this.2)
    simp only [hbest]
    exact lookup_of_mem_nodup hnd hmem

/-- Witness for C6: thresholds `{5 ↦ 100, 10 ↦ 200}` give no role at
total 4, role 100 at totals 5 and 9, and role 200 at total 10. -/
theorem nextRole_max_threshold_w :
    (next_award_roles_for [(1, [(5, 100), (10, 200)])] 1 4).1 = none ∧
    (next_award_roles_for [(1, [(5, 100), (10, 200)])] 1 5).1 = some 100 ∧
    (next_award_roles_for [(1, [(5, 100), (10, 200)])] 1 9).1 = some 100 ∧
    (next_award_roles_for [(1, [(5, 100), (10, 200)])] 1 10).1 = some 200 :=
  ⟨(nextRole_max_threshold [(1, [(5, 100), (10, 200)])] 1 4 (by decide)).1
      (by decide),
   (nextRole_max_threshold [(1, [(5, 100), (10, 200)])] 1 5 (by decide)).2
      5 100 (by decide) (by decide) (by decide),
   (nextRole_max_threshold [(1, [(5, 100), (10, 200)])] 1 9 (by decide)).2
      5 100 (by decide) (by decide) (by decide),
   (nextRole_max_threshold [(1, [(5, 100), (10, 200)])] 1 10 (by decide)).2
      10 200 (by decide) (by decide) (by decide)⟩

/-- Claim C7: `get_member_total_referrals` returns the sum of the stored
use counts over the invites owned by the user in the guild, and 0 when the
user owns none, in every state reached from the empty database by a
sequence of register/record operations. -/
theorem totalReferrals_sum_owned (ops : List Op) (g u : Int) :
    get_member_total_referrals g u (applyOps ops) =
      (((applyOps ops).user_invites.filter fun inv =>
        inv.guild_id == g && inv.user_id == u).map (·.uses)).sum ∧
    ((∀ inv ∈ (applyOps ops).user_invites,
        ¬ (inv.guild_id = g ∧ inv.user_id = u)) →
      get_member_total_referrals g u (applyOps ops) = 0) := by
  constructor
  · unfold get_member_total_referrals sqlSumUses
    cases hf : (applyOps ops).user_invites.filter fun inv =>
        inv.guild_id == g && inv.user_id == u with
    | nil => simp
    | cons a l => simp
  · intro h
    have hf : ((applyOps ops).user_invites.filter fun inv =>
        inv.guild_id == g && inv.user_id == u) = [] := by
      rw [List.filter_eq_nil_iff]
      intro inv hinv
      simpa using h inv hinv
    unfold get_member_total_referrals
    rw [hf]
    rfl

/-- Witness for C7: after registering code `A` for user 2 in guild 1,
user 3 owns nothing and totals 0. -/
theorem totalReferrals_sum_owned_w :
    get_member_total_referrals 1 3 (applyOps [Op.register 1 2 "A"]) = 0 :=
  (totalReferrals_sum_owned [Op.register 1 2 "A"] 1 3).2 (by decide)

/-- Claim C10 (implicit): a join resolved to a code with no row in
`user_invites` (never registered; e.g. only known to the cache through a
refresh or a public invite) still appends a Join Event row, increments no
stored use count, and grants no role.  Invite codes are nonempty platform
tokens, hence the `c ≠ ""` hypothesis matching the handler's
`if not used_code` truthiness test. -/
theorem unregistered_code_join_event (rw : Rewards) (re : Int → Bool)
    (mp : Int → Bool) (mhr : Int → Int → Bool) (g memberId ts : Int)
    (s : BotState) (after : List InviteInfo) (c : String)
    (hres : resolveJoin (cacheGet s.cache g) after = some c)
    (hc : c ≠ "")
    (hnone : ∀ inv ∈ s.db.user_invites, inv.code ≠ c) :
    (on_member_join rw re mp mhr g memberId ts (.ok after)
      s).state.db.user_invites = s.db.user_invites ∧
    (on_member_join rw re mp mhr g memberId ts (.ok after)
      s).state.db.join_events =
      s.db.join_events ++ [⟨g, memberId, c, ts⟩] ∧
    (on_member_join rw re mp mhr g memberId ts (.ok after)
      s).grantedRole = none ∧
    (on_member_join rw re mp mhr g memberId ts (.ok after)
      s).used_code = some c := by
  have hbump : bumpUses g c s.db = s.db := by
    refine bumpUses_eq_of_no_match fun inv hinv => ?_
    simp [hnone inv hinv]
  have hdb1 : increment_code_use g c memberId ts s.db =
      ⟨s.db.user_invites, s.db.join_events ++ [⟨g, memberId, c, ts⟩]⟩ := by
    unfold increment_code_use
    rw [hbump]
    rfl
  have hfind : (s.db.user_invites.find? fun inv =>
      inv.guild_id == g && inv.code == c) = none := by
    rw [List.find?_eq_none]
    intro inv hinv
    simp [hnone inv hinv]
  have hce : c.isEmpty = false := by
    rcases hcc : c.isEmpty with _ | _
    · rfl
    · exact absurd ((String.isEmpty_iff c).mp hcc) hc
  have htr : pyTruthy (some c) = true := by
    show (!c.isEmpty) = true
    rw [hce]
    rfl
  simp only [on_member_join, hres, htr, if_true, hdb1, hfind]
  exact ⟨rfl, rfl, rfl, rfl⟩

/-- Witness for C10: the cache knows code `X` (uses 0) with no database
row; a join that bumps `X` to 1 appends the event, changes no invite row,
and grants nothing. -/
theorem unregistered_code_join_event_w :
    (on_member_join [] (fun _ => false) (fun _ => false) (fun _ _ => false)
      1 42 7 (.ok [⟨"X", some 1⟩])
      ⟨[(1, [("X", 0)])], ⟨[], []⟩⟩).state.db.user_invites = [] ∧
    (on_member_join [] (fun _ => false) (fun _ => false) (fun _ _ => false)
      1 42 7 (.ok [⟨"X", some 1⟩])
      ⟨[(1, [("X", 0)])], ⟨[], []⟩⟩).state.db.join_events =
      [⟨1, 42, "X", 7⟩] ∧
    (on_member_join [] (fun _ => false) (fun _ => false) (fun _ _ => false)
      1 42 7 (.ok [⟨"X", some 1⟩])
      ⟨[(1, [("X", 0)])], ⟨[], []⟩⟩).grantedRole = none ∧
    (on_member_join [] (fun _ => false) (fun _ => false) (fun _ _ => false)
      1 42 7 (.ok [⟨"X", some 1⟩])
      ⟨[(1, [("X", 0)])], ⟨[], []⟩⟩).used_code = some "X" :=
  unregistered_code_join_event [] (fun _ => false) (fun _ => false)
    (fun _ _ => false) 1 42 7 ⟨[(1, [("X", 0)])], ⟨[], []⟩⟩
    [⟨"X", some 1⟩] "X" (by decide) (by decide) (by decide)

/-! ## Ledger invariant (C5) -/

/-- Appending one join event adds one to the count of its code and nothing
to any other code. -/
theorem eventCount_append (evs : List JoinEvent) (e₀ : JoinEvent)
    (x : String) :
    eventCount (evs ++ [e₀]) x =
      eventCount evs x + (if e₀.inviter_code == x then 1 else 0) := by
  unfold eventCount
  rw [List.filter_append, List.length_append]
  congr 1
  by_cases h : (e₀.inviter_code == x) = true <;>
    simp [List.filter, h]

/-- One on-ledger operation preserves the ledger invariant: codes stay
distinct, each invite's use count equals the number of events with its
code, and every event's code has an invite row. -/
theorem ledger_inv_step (db : DB) (op : Op)
    (h1 : (db.user_invites.map (·.code)).Nodup)
    (h2 : ∀ inv ∈ db.user_invites,
      eventCount db.join_events inv.code = inv.uses)
    (h3 : ∀ e ∈ db.join_events, ∃ inv ∈ db.user_invites,
      inv.code = e.inviter_code)
    (hv : opOnLedger db op = true) :
    ((applyOp db op).user_invites.map (·.code)).Nodup ∧
    (∀ inv ∈ (applyOp db op).user_invites,
      eventCount (applyOp db op).join_events inv.code = inv.uses) ∧
    (∀ e ∈ (applyOp db op).join_events,
      ∃ inv ∈ (applyOp db op).user_invites, inv.code = e.inviter_code) := by
  cases op with
  | register g u c =>
    by_cases hpres : db.user_invites.any (fun inv => inv.code == c) = true
    · have happ : applyOp db (.register g u c) =
          { db with user_invites := db.user_invites.map fun inv =>
              if inv.code == c then { inv with guild_id := g, user_id := u }
              else inv } := by
        show add_or_upsert_invite_owner g u c db = _
        unfold add_or_upsert_invite_owner
        rw [if_pos hpres]
      rw [happ]
      have hcode : ∀ inv : Invite,
          ((fun inv : Invite => if inv.code == c then
            { inv with guild_id := g, user_id := u } else inv) inv).code =
          inv.code := by
        intro inv
        show (if (inv.code == c) = true then
          { inv with guild_id := g, user_id := u } else inv).code = inv.code
        split <;> rfl
      have huses : ∀ inv : Invite,
          ((fun inv : Invite => if inv.code == c then
            { inv with guild_id := g, user_id := u } else inv) inv).uses =
          inv.uses := by
        intro inv
        show (if (inv.code == c) = true then
          { inv with guild_id := g, user_id := u } else inv).uses = inv.uses
        split <;> rfl
      have hcodes : ((db.user_invites.map fun inv =>
          if inv.code == c then { inv with guild_id := g, user_id := u }
          else inv).map (·.code)) = db.user_invites.map (·.code) := by
        rw [List.map_map]
        exact List.map_congr_left fun inv _ => hcode inv
      refine ⟨?_, ?_, ?_⟩
      · show ((db.user_invites.map fun inv =>
          if inv.code == c then { inv with guild_id := g, user_id := u }
          else inv).map (·.code)).Nodup
        rw [hcodes]
        exact h1
      · intro inv' hinv'
        obtain ⟨inv, hinv, rfl⟩ := List.mem_map.mp hinv'
        show eventCount db.join_events _ = _
        rw [hcode inv, huses inv]
        exact h2 inv hinv
      · intro e he
        obtain ⟨inv, hinv, hc⟩ := h3 e he
        refine ⟨_, List.mem_map_of_mem (fun inv : Invite =>
          if inv.code == c then { inv with guild_id := g, user_id := u }
          else inv) hinv, ?_⟩
        rw [hcode inv]
        exact hc
    · have habs : ∀ inv ∈ db.user_invites, ¬ (inv.code == c) = true :=
        List.any_eq_false.mp (Bool.eq_false_iff.mpr hpres)
      have hnone : db.user_invites.find? (fun inv => inv.code == c) = none :=
        List.find?_eq_none.mpr habs
      have happ : applyOp db (.register g u c) =
          { db with user_invites := db.user_invites ++ [⟨g, u, c, 0⟩] } := by
        show add_or_upsert_invite_owner g u c db = _
        unfold add_or_upsert_invite_owner
        rw [if_neg hpres, hnone]
        rfl
      rw [happ]
      refine ⟨?_, ?_, ?_⟩
      · show ((db.user_invites ++ [(⟨g, u, c, 0⟩ : Invite)]).map (·.code)).Nodup
        rw [List.map_append, List.nodup_append]
        refine ⟨h1, by simp, ?_⟩
        intro x hx hx'
        have hxc : x = c := by simpa using hx'
        subst hxc
        obtain ⟨inv, hinv, hcodeeq⟩ := List.mem_map.mp hx
        exact habs inv hinv (by simp [hcodeeq])
      · intro inv' hinv'
        rcases List.mem_append.mp hinv' with h | h
        · exact h2 inv' h
        · have hinv0 : inv' = ⟨g, u, c, 0⟩ := by simpa using h
          subst hinv0
          show eventCount db.join_events c = 0
          have hnil : db.join_events.filter
              (fun e => e.inviter_code == c) = [] := by
            rw [List.filter_eq_nil_iff]
            intro e he hbe
            obtain ⟨inv, hinv, hic⟩ := h3 e he
            exact habs inv hinv (by
              rw [beq_iff_eq] at hbe ⊢
              rw [hic, hbe])
          unfold eventCount
          rw [hnil]
          rfl
      · intro e he
        obtain ⟨inv, hinv, hc'⟩ := h3 e he
        exact ⟨inv, List.mem_append_left _ hinv, hc'⟩
  | record g c joined ts =>
    obtain ⟨inv₀, hinv₀, hcond₀⟩ :=
      List.any_eq_true.mp (by exact hv)
    have hg₀ : inv₀.guild_id = g ∧ inv₀.code = c := by simpa using hcond₀
    have hbumpc : ∀ inv : Invite,
        ((fun inv : Invite => if inv.guild_id == g && inv.code == c then
          { inv with uses := inv.uses + 1 } else inv) inv).code = inv.code := by
      intro inv
      show (if (inv.guild_id == g && inv.code == c) = true then
        { inv with uses := inv.uses + 1 } else inv).code = inv.code
      split <;> rfl
    have happ : applyOp db (.record g c joined ts) =
        ⟨db.user_invites.map fun inv =>
          if inv.guild_id == g && inv.code == c then
            { inv with uses := inv.uses + 1 } else inv,
         db.join_events ++ [⟨g, joined, c, ts⟩]⟩ := rfl
    rw [happ]
    refine ⟨?_, ?_, ?_⟩
    · show ((db.user_invites.map fun inv =>
        if inv.guild_id == g && inv.code == c then
          { inv with uses := inv.uses + 1 } else inv).map (·.code)).Nodup
      rw [List.map_map]
      have hcomp : ((fun x : Invite => x.code) ∘ fun inv : Invite =>
          if inv.guild_id == g && inv.code == c then
            { inv with uses := inv.uses + 1 } else inv) =
          fun inv : Invite => inv.code := by
        funext inv
        exact hbumpc inv
      rw [hcomp]
      exact h1
    · intro inv' hinv'
      obtain ⟨inv, hinv, rfl⟩ := List.mem_map.mp hinv'
      by_cases hc' : inv.code = c
      · have hinveq : inv = inv₀ :=
          List.inj_on_of_nodup_map h1 hinv hinv₀ (by rw [hc', hg₀.2])
        subst hinveq
        have hcondt : (inv.guild_id == g && inv.code == c) = true := by
          simp [hg₀.1, hg₀.2]
        show eventCount (db.join_events ++ [⟨g, joined, c, ts⟩])
          ((fun inv : Invite => if inv.guild_id == g && inv.code == c then
            { inv with uses := inv.uses + 1 } else inv) inv).code =
          ((fun inv : Invite => if inv.guild_id == g && inv.code == c then
            { inv with uses := inv.uses + 1 } else inv) inv).uses
        rw [show ((fun inv : Invite =>
            if inv.guild_id == g && inv.code == c then
              { inv with uses := inv.uses + 1 } else inv) inv) =
            { inv with uses := inv.uses + 1 } from by
          show (if (inv.guild_id == g && inv.code == c) = true then
            { inv with uses := inv.uses + 1 } else inv) = _
          rw [if_pos hcondt]]
        show eventCount (db.join_events ++ [⟨g, joined, c, ts⟩]) inv.code =
          inv.uses + 1
        rw [eventCount_append]
        have : ((⟨g, joined, c, ts⟩ : JoinEvent).inviter_code == inv.code) =
            true := by simp [hc']
        rw [this, if_pos rfl, h2 inv hinv]
      · have hcondf : ¬ (inv.guild_id == g && inv.code == c) = true := by
          simp [hc']
        show eventCount (db.join_events ++ [⟨g, joined, c, ts⟩])
          ((fun inv : Invite => if inv.guild_id == g && inv.code == c then
            { inv with uses := inv.uses + 1 } else inv) inv).code =
          ((fun inv : Invite => if inv.guild_id == g && inv.code == c then
            { inv with uses := inv.uses + 1 } else inv) inv).uses
        rw [show ((fun inv : Invite =>
            if inv.guild_id == g && inv.code == c then
              { inv with uses := inv.uses + 1 } else inv) inv) = inv from by
          show (if (inv.guild_id == g && inv.code == c) = true then
            { inv with uses := inv.uses + 1 } else inv) = inv
          rw [if_neg hcondf]]
        rw [eventCount_append]
        have : ((⟨g, joined, c, ts⟩ : JoinEvent).inviter_code == inv.code) =
            false := by
          simp
          exact fun h => hc' h.symm
        rw [this, if_neg (by simp), h2 inv hinv]
        exact Nat.add_zero inv.uses
    · intro e he
      rcases List.mem_append.mp he with h | h
      · obtain ⟨inv, hinv, hc'⟩ := h3 e h
        exact ⟨_, List.mem_map_of_mem _ hinv, by rw [hbumpc inv]; exact hc'⟩
      · have he0 : e = ⟨g, joined, c, ts⟩ := by simpa using h
        subst he0
        exact ⟨_, List.mem_map_of_mem _ hinv₀, by rw [hbumpc inv₀]; exact hg₀.2⟩

/-- Running any on-ledger sequence preserves the ledger invariant. -/
theorem ledger_inv_run (ops : List Op) (db : DB)
    (h1 : (db.user_invites.map (·.code)).Nodup)
    (h2 : ∀ inv ∈ db.user_invites,
      eventCount db.join_events inv.code = inv.uses)
    (h3 : ∀ e ∈ db.join_events, ∃ inv ∈ db.user_invites,
      inv.code = e.inviter_code)
    (hv : opsOnLedger db ops = true) :
    (((ops.foldl applyOp db).user_invites.map (·.code)).Nodup) ∧
    (∀ inv ∈ (ops.foldl applyOp db).user_invites,
      eventCount (ops.foldl applyOp db).join_events inv.code = inv.uses) ∧
    (∀ e ∈ (ops.foldl applyOp db).join_events,
      ∃ inv ∈ (ops.foldl applyOp db).user_invites,
        inv.code = e.inviter_code) := by
  induction ops generalizing db with
  | nil => exact ⟨h1, h2, h3⟩
  | cons op rest ih =>
    have hv' := Bool.and_eq_true_iff.mp (by exact hv)
    obtain ⟨hstep1, hstep2, hstep3⟩ :=
      ledger_inv_step db op h1 h2 h3 hv'.1
    exact ih (applyOp db op) hstep1 hstep2 hstep3 hv'.2

/-- Claim C5 counterexample: recording a use for the unregistered code `X`
(allowed: `on_member_join` increments any resolved code) and then
registering `X` yields an invite row with uses 0 but one Join Event for
`X`, so the claimed invariant `uses ≥ events` fails on a reachable state. -/
theorem ledger_invariant_cex :
    ¬ (∀ inv ∈ (applyOps [Op.record 1 "X" 7 0,
          Op.register 1 2 "X"]).user_invites,
        eventCount (applyOps [Op.record 1 "X" 7 0,
          Op.register 1 2 "X"]).join_events inv.code ≤ inv.uses) := by
  decide

/-- Claim C5 (amended): in every state reachable from the empty database
by a sequence of register/record operations in which every record names a
(guild, code) pair with a row in `user_invites` at that moment, each
invite's use count equals — hence is at least — the number of Join Event
rows with its code. -/
theorem ledger_use_count_matches_events (ops : List Op)
    (hv : opsOnLedger dbEmpty ops = true) :
    ∀ inv ∈ (applyOps ops).user_invites,
      eventCount (applyOps ops).join_events inv.code ≤ inv.uses ∧
      eventCount (applyOps ops).join_events inv.code = inv.uses := by
  intro inv hinv
  have h := ledger_inv_run ops dbEmpty (by simp [dbEmpty])
    (by intro inv h; cases h) (by intro e h; cases h) hv
  exact ⟨le_of_eq (h.2.1 inv hinv), h.2.1 inv hinv⟩

/-- Witness for the amended C5: register `X` for user 2 in guild 1, then
record one use; the stored count 1 equals the one `X` event. -/
theorem ledger_use_count_matches_events_w :
    eventCount (applyOps [Op.register 1 2 "X",
        Op.record 1 "X" 7 0]).join_events
      (⟨1, 2, "X", 1⟩ : Invite).code = (⟨1, 2, "X", 1⟩ : Invite).uses :=
  (ledger_use_count_matches_events [Op.register 1 2 "X", Op.record 1 "X" 7 0]
    (by decide) ⟨1, 2, "X", 1⟩ (by decide)).2

/-! ## Rewards config loading (C8) -/

/-- The whole-config normalisation fold of `load_rewards_config` fails as
soon as one guild's mapping fails to convert. -/
theorem rewards_fold_none (data : RawRewards)
    (h : ∃ gm ∈ data, convMapping gm.2 = none) :
    data.foldr (fun gm acc =>
      match convMapping gm.2, acc with
      | some cm, some r => some ((gm.1, cm) :: r)
      | _, _ => none) (some []) = none := by
  induction data with
  | nil =>
    obtain ⟨gm, h0, _⟩ := h
    cases h0
  | cons gm rest ih =>
    rw [List.foldr_cons]
    rcases hconv : convMapping gm.2 with _ | cm
    · rfl
    · obtain ⟨gm', hmem, hnone⟩ := h
      rcases List.mem_cons.mp hmem with rfl | hmem'
      · rw [hconv] at hnone
        cases hnone
      · rw [ih ⟨gm', hmem', hnone⟩]

/-- The whole-config normalisation fold succeeds with the converted
mappings when every guild's mapping converts. -/
theorem rewards_fold_some (data : RawRewards)
    (h : ∀ gm ∈ data, (convMapping gm.2).isSome = true) :
    data.foldr (fun gm acc =>
      match convMapping gm.2, acc with
      | some cm, some r => some ((gm.1, cm) :: r)
      | _, _ => none) (some []) =
    some (data.map fun gm => (gm.1, (convMapping gm.2).getD [])) := by
  induction data with
  | nil => rfl
  | cons gm rest ih =>
    rw [List.foldr_cons, ih (fun x hx => h x (List.mem_cons_of_mem gm hx))]
    rcases hconv : convMapping gm.2 with _ | cm
    · have := h gm (List.mem_cons_self gm rest)
      rw [hconv] at this
      cases this
    · simp [hconv]

/-- Claim C8 counterexample: community `"1"` has a valid entry and
community `"2"` an invalid one; the loader returns the empty configuration,
so community `"1"`'s valid configuration is dropped too, contradicting the
claim that other communities remain loaded. -/
theorem config_invalid_drops_all_cex :
    load_rewards_config
      (some [("1", [("5", some 100)]), ("2", [("5", none)])]) = [] ∧
    ¬ (List.lookup "1" (load_rewards_config
        (some [("1", [("5", some 100)]), ("2", [("5", none)])])) =
      some [("5", 100)]) := by
  decide

/-- Claim C8 (amended): an invalid reward entry is never fatal — the
loader always returns a configuration — but it is not contained per
community: one invalid entry anywhere makes `load_rewards_config` drop the
whole configuration and return the empty mapping, while a configuration
with every entry valid loads completely. -/
theorem load_rewards_config_invalid (data : RawRewards) :
    ((∃ gm ∈ data, convMapping gm.2 = none) →
      load_rewards_config (some data) = []) ∧
    ((∀ gm ∈ data, (convMapping gm.2).isSome = true) →
      load_rewards_config (some data) =
        data.map fun gm => (gm.1, (convMapping gm.2).getD [])) := by
  constructor
  · intro h
    show (match data.foldr (fun gm acc =>
        match convMapping gm.2, acc with
        | some cm, some r => some ((gm.1, cm) :: r)
        | _, _ => none) (some []) with
      | some d => d
      | none => []) = []
    rw [rewards_fold_none data h]
  · intro h
    show (match data.foldr (fun gm acc =>
        match convMapping gm.2, acc with
        | some cm, some r => some ((gm.1, cm) :: r)
        | _, _ => none) (some []) with
      | some d => d
      | none => []) =
      data.map fun gm => (gm.1, (convMapping gm.2).getD [])
    rw [rewards_fold_some data h]

/-- Witness for C8: one invalid value empties the whole result; the same
data without it loads fully. -/
theorem load_rewards_config_invalid_w :
    load_rewards_config
      (some [("1", [("5", some 100)]), ("2", [("5", none)])]) = [] ∧
    load_rewards_config (some [("1", [("5", some 100)])]) =
      [("1", [("5", 100)])] :=
  ⟨(load_rewards_config_invalid
      [("1", [("5", some 100)]), ("2", [("5", none)])]).1
      ⟨("2", [("5", none)]), by decide, rfl⟩,
   (load_rewards_config_invalid [("1", [("5", some 100)])]).2 (by decide)⟩

/-! ## Degraded mode (C9) -/

/-- Claim C9 counterexample: a permission failure empties guild 1's cache;
the next join's fresh fetch succeeds and returns invite `C` with one use,
and the join is attributed to `C` — attribution is possible before any
refresh succeeds for the guild. -/
theorem degraded_cache_attribution_cex :
    (on_member_join [] (fun _ => false) (fun _ => false) (fun _ _ => false)
      1 42 0 (.ok [⟨"C", some 1⟩])
      ⟨refresh_guild_invites 1 .forbidden [], dbEmpty⟩).used_code =
      some "C" ∧
    ¬ ((on_member_join [] (fun _ => false) (fun _ => false)
      (fun _ _ => false) 1 42 0 (.ok [⟨"C", some 1⟩])
      ⟨refresh_guild_invites 1 .forbidden [], dbEmpty⟩).used_code =
      none) := by
  decide

/-- Claim C9 (amended): while the guild's snapshot mapping is empty
(degraded mode), a join is unattributed — and the state untouched — exactly
as long as the fresh fetch in the join handler keeps failing; once a fetch
succeeds, resolution diffs against the empty snapshot, so the first invite
with a positive use count is attributed even though no refresh succeeded. -/
theorem degraded_mode_attribution (rw : Rewards) (re : Int → Bool)
    (mp : Int → Bool) (mhr : Int → Int → Bool) (g memberId ts : Int)
    (s : BotState) (hdeg : cacheGet s.cache g = []) :
    ((on_member_join rw re mp mhr g memberId ts .forbidden s).used_code =
        none ∧
      (on_member_join rw re mp mhr g memberId ts .forbidden s).state = s ∧
      (on_member_join rw re mp mhr g memberId ts .error s).used_code =
        none ∧
      (on_member_join rw re mp mhr g memberId ts .error s).state = s) ∧
    (∀ after : List InviteInfo,
      resolveJoin (cacheGet s.cache g) after =
        (after.find? fun inv => 0 < inv.uses.getD 0).map (·.code)) := by
  refine ⟨⟨rfl, rfl, rfl, rfl⟩, ?_⟩
  intro after
  rw [hdeg]
  rfl

/-- Witness for C9 (amended): with an empty cached mapping for guild 1, a
failing fetch leaves the join unattributed and the state unchanged, while
a successful fetch showing invite `C` at one use resolves to `C`. -/
theorem degraded_mode_attribution_w :
    (on_member_join [] (fun _ => false) (fun _ => false) (fun _ _ => false)
      1 42 0 .forbidden ⟨[(1, [])], dbEmpty⟩).used_code = none ∧
    resolveJoin (cacheGet ([(1, [])] : Cache) 1) [⟨"C", some 1⟩] =
      ((([⟨"C", some 1⟩] : List InviteInfo).find? fun inv =>
        0 < inv.uses.getD 0).map (·.code)) :=
  ⟨(degraded_mode_attribution [] (fun _ => false) (fun _ => false)
      (fun _ _ => false) 1 42 0 ⟨[(1, [])], dbEmpty⟩ rfl).1.1,
   (degraded_mode_attribution [] (fun _ => false) (fun _ => false)
      (fun _ _ => false) 1 42 0 ⟨[(1, [])], dbEmpty⟩ rfl).2 [⟨"C", some 1⟩]⟩

end RefCord
